import Mathlib

/-!
Verification of the clang-tidy output parser of this repository
(src/python_action/clang_tidy.py).

The program is shallowly embedded over lists of characters.  A line is
the content of one line of the report file without its terminating
newline: the Python code reads lines with readlines(), which keeps the
trailing newline, but the regex anchor treats a final newline as the
end of the line, int() and strip() discard surrounding whitespace, and
the greedy bracket search never reaches past the last bracket, so
dropping the terminator at the boundary preserves every observable
field of every constructed record.

Python strings become List Char, str.split on a colon becomes
splitCols, str.strip() becomes pyStrip, str.replace with an empty
replacement becomes removeAll, int() becomes pyInt (ASCII-decimal
fragment), and the two regular expressions of the source are modelled
by executable, structurally recursive matchers; their correspondence
with the regex language is proved below.  Character classes are the
ASCII fragments of the Python classes.
-/

namespace ClangTidy

/-! ### Definitions -/

abbrev Line := List Char

def isDigitC (c : Char) : Bool := 48 ≤ c.toNat && c.toNat ≤ 57

def isWordC (c : Char) : Bool :=
  (48 ≤ c.toNat && c.toNat ≤ 57) || (65 ≤ c.toNat && c.toNat ≤ 90) ||
    (97 ≤ c.toNat && c.toNat ≤ 122) || c.toNat == 95

def isSpaceC (c : Char) : Bool := c.toNat == 32 || (9 ≤ c.toNat && 13 ≥ c.toNat)

def lastC {α : Type} : List α → Option α
  | [] => none
  | [a] => some a
  | _ :: b :: xs => lastC (b :: xs)

def splitCols : Line → List Line
  | [] => [[]]
  | c :: cs =>
    if c = ':' then [] :: splitCols cs
    else
      match splitCols cs with
      | [] => [[c]]
      | s :: ss => (c :: s) :: ss

def joinC : List Line → Line
  | [] => []
  | [s] => s
  | s :: ss => s ++ ':' :: joinC ss

def pyStrip (l : Line) : Line :=
  ((l.dropWhile isSpaceC).reverse.dropWhile isSpaceC).reverse

def removeAllF (pat : List Char) : Nat → List Char → List Char
  | _, [] => []
  | 0, s => s
  | fuel + 1, c :: rest =>
    if pat ≠ [] ∧ pat.isPrefixOf (c :: rest) then
      removeAllF pat fuel (List.drop (pat.length - 1) rest)
    else c :: removeAllF pat fuel rest

def removeAll (pat s : List Char) : List Char := removeAllF pat s.length s

def upToLastClose (cs : List Char) : List Char :=
  (cs.reverse.dropWhile (fun c => !(c = ']'))).reverse

def extractBracket : List Char → Option (List Char)
  | [] => none
  | c :: rest =>
    if c = '[' ∧ ']' ∈ rest then some ('[' :: upToLastClose rest)
    else extractBracket rest

def valNat (cs : List Char) : Nat := cs.foldl (fun a c => 10 * a + (c.toNat - 48)) 0

def digitChar : Nat → Char
  | 0 => '0' | 1 => '1' | 2 => '2' | 3 => '3' | 4 => '4'
  | 5 => '5' | 6 => '6' | 7 => '7' | 8 => '8' | _ => '9'

def digitsRevF : Nat → Nat → List Char
  | 0, _ => []
  | fuel + 1, n => if n = 0 then [] else digitChar (n % 10) :: digitsRevF fuel (n / 10)

def natChars (n : Nat) : List Char := if n = 0 then ['0'] else (digitsRevF n n).reverse

def intChars (i : Int) : List Char :=
  if i < 0 then '-' :: natChars i.natAbs else natChars i.toNat

inductive ParseErr
  | fieldCount : Nat → ParseErr
  | noBracket : ParseErr
  | badInt : ParseErr
deriving DecidableEq, Repr

def pyIntCore : List Char → Except ParseErr Int
  | [] => .error .badInt
  | d :: rest =>
    if d = '-' then
      if rest ≠ [] ∧ rest.all isDigitC then .ok (-(valNat rest : Int))
      else .error .badInt
    else if d = '+' then
      if rest ≠ [] ∧ rest.all isDigitC then .ok ((valNat rest : Int))
      else .error .badInt
    else if (d :: rest).all isDigitC then .ok ((valNat (d :: rest) : Int))
    else .error .badInt

def pyInt (cs : List Char) : Except ParseErr Int := pyIntCore (pyStrip cs)

def digitsThenColon (cs : List Char) : Option (List Char) :=
  if cs.takeWhile isDigitC = [] then none
  else if (cs.dropWhile isDigitC).head? = some ':' then
    some (cs.dropWhile isDigitC).tail
  else none

def wordsThenColon (cs : List Char) : Option (List Char) :=
  if cs.takeWhile isWordC = [] then none
  else if (cs.dropWhile isWordC).head? = some ':' then
    some (cs.dropWhile isWordC).tail
  else none

def bracketTail (cs : List Char) : Bool :=
  match cs.reverse with
  | [] => false
  | c :: rest => decide (c = ']') && decide ('[' ∈ rest)

def tailMatch (cs : List Char) : Bool :=
  match digitsThenColon cs with
  | none => false
  | some r1 =>
    match digitsThenColon r1 with
    | none => false
    | some r2 =>
      match r2 with
      | [] => false
      | w :: r3 =>
        isSpaceC w &&
          (match wordsThenColon r3 with
           | none => false
           | some r4 => bracketTail r4)

def headerMatch : Line → Bool
  | [] => false
  | c :: rest => (decide (c = ':') && tailMatch rest) || headerMatch rest

structure TidyNotification where
  filename : List Char
  line : Int
  cols : Int
  note_type : List Char
  note_info : List Char
  diagnostic : List Char
  fixit_lines : List (List Char)
deriving DecidableEq, Repr

def slicedAfterMerge (platform : List Char) (l : Line) : List Line :=
  if "win32".data.isPrefixOf platform ∧ 5 < (splitCols l).length then
    match splitCols l with
    | a :: b :: rest => (a ++ ':' :: b) :: rest
    | s => s
  else splitCols l

def mkNotification (platform cwd sep : List Char) (l : Line) :
    Except ParseErr TidyNotification :=
  match slicedAfterMerge platform l with
  | [f, l0, c0, t0, m0] =>
    match extractBracket m0 with
    | none => .error .noBracket
    | some b =>
      match pyInt l0, pyInt c0 with
      | .ok li, .ok co =>
        .ok { filename := removeAll (cwd ++ sep) f
              line := li
              cols := co
              note_type := pyStrip t0
              note_info := pyStrip (removeAll b m0)
              diagnostic := (b.drop 1).dropLast
              fixit_lines := [] }
      | .error e, _ => .error e
      | _, .error e => .error e
  | s => .error (.fieldCount s.length)

def addFixit (r : TidyNotification) (l : Line) : TidyNotification :=
  { r with fixit_lines := r.fixit_lines ++ [l] }

def log_command (r : TidyNotification) : List Char :=
  "::".data ++
    (if "note".data.isPrefixOf r.note_type then "notice".data else r.note_type) ++
    " file=".data ++ r.filename ++ ",line=".data ++ intChars r.line ++
    ",title=".data ++ r.filename ++ ":".data ++ intChars r.line ++ ":".data ++
    intChars r.cols ++ " [".data ++ r.diagnostic ++ "]::".data ++ r.note_info

def parseStep (platform cwd sep : List Char)
    (st : List TidyNotification × Option TidyNotification) (l : Line) :
    Except ParseErr (List TidyNotification × Option TidyNotification) :=
  if headerMatch l = true then
    match mkNotification platform cwd sep l with
    | .error e => .error e
    | .ok n => .ok (st.1 ++ st.2.toList, some n)
  else
    match st.2 with
    | some cur => .ok (st.1, some (addFixit cur l))
    | none => .ok (st.1, none)

def runLines (platform cwd sep : List Char) :
    List TidyNotification × Option TidyNotification → List Line →
      Except ParseErr (List TidyNotification × Option TidyNotification)
  | st, [] => .ok st
  | st, l :: ls =>
    match parseStep platform cwd sep st l with
    | .error e => .error e
    | .ok st2 => runLines platform cwd sep st2 ls

def parse_tidy_output (platform cwd sep : List Char)
    (prior : List TidyNotification) (lines : List Line) :
    Except ParseErr (List TidyNotification) :=
  Except.map (fun st => st.1 ++ st.2.toList)
    (runLines platform cwd sep (prior, none) lines)

def parseAux (platform cwd sep : List Char) :
    Option TidyNotification → List Line → Except ParseErr (List TidyNotification)
  | cur, [] => .ok cur.toList
  | cur, l :: ls =>
    if headerMatch l = true then
      match mkNotification platform cwd sep l with
      | .error e => .error e
      | .ok n =>
        Except.map (fun res => cur.toList ++ res) (parseAux platform cwd sep (some n) ls)
    else
      match cur with
      | some c => parseAux platform cwd sep (some (addFixit c l)) ls
      | none => parseAux platform cwd sep none ls

def specGroups : List Line → List (List Line)
  | [] => []
  | l :: ls =>
    if headerMatch l = true then
      (ls.takeWhile fun x => !headerMatch x) :: specGroups ls
    else specGroups ls

instance {ε α : Type} [DecidableEq ε] [DecidableEq α] : DecidableEq (Except ε α) :=
  fun x y =>
    match x, y with
    | .error e, .error f =>
      if h : e = f then isTrue (by rw [h]) else
        isFalse (by intro he; cases he; exact h rfl)
    | .ok a, .ok b =>
      if h : a = b then isTrue (by rw [h]) else
        isFalse (by intro he; cases he; exact h rfl)
    | .error _, .ok _ => isFalse (by intro h; cases h)
    | .ok _, .error _ => isFalse (by intro h; cases h)

def rederiveHeader (r : TidyNotification) : Line :=
  r.filename ++ ':' :: (intChars r.line ++ ':' :: (intChars r.cols ++ ':' ::
    (' ' :: (r.note_type ++ ':' :: (' ' :: (r.note_info ++
      ' ' :: '[' :: (r.diagnostic ++ [']'])))))))

def lastPairInner (cs : List Char) : Option (List Char) :=
  match cs.reverse.dropWhile (fun c => !(c = ']')) with
  | [] => none
  | c :: r2 =>
    if c = ']' ∧ '[' ∈ r2 then
      some ((r2.takeWhile (fun d => !(d = '['))).reverse)
    else none

def logDirectiveForm (r : TidyNotification) : List Char :=
  "::".data ++
    (if "note".data.isPrefixOf r.note_type then "notice".data else r.note_type) ++
    " file=".data ++ r.filename ++ ",line=".data ++ intChars r.line ++
    ",title=".data ++ r.filename ++ ":".data ++ intChars r.line ++ ":".data ++
    intChars r.cols ++ " [".data ++ r.diagnostic ++ "]::".data ++ r.note_info

def recA : TidyNotification :=
  { filename := "a.cpp".data, line := 1, cols := 2, note_type := "warning".data,
    note_info := "m".data, diagnostic := "c".data,
    fixit_lines := ["  int x;".data, "  ^".data] }

def recB : TidyNotification :=
  { filename := "b.cpp".data, line := 3, cols := 4, note_type := "error".data,
    note_info := "n".data, diagnostic := "d".data,
    fixit_lines := ["  fix".data] }

def recOld : TidyNotification :=
  { filename := "old.cpp".data, line := 7, cols := 1, note_type := "note".data,
    note_info := "x".data, diagnostic := "d".data, fixit_lines := [] }

def recF : TidyNotification :=
  { filename := "f.cpp".data, line := 1, cols := 2, note_type := "warning".data,
    note_info := "m".data, diagnostic := "c".data, fixit_lines := [] }

def recNote : TidyNotification :=
  { filename := "a.cpp".data, line := 3, cols := 1, note_type := "note".data,
    note_info := "m".data, diagnostic := "c".data, fixit_lines := [] }

def recWarn : TidyNotification :=
  { filename := "a.cpp".data, line := 3, cols := 1, note_type := "warning".data,
    note_info := "m".data, diagnostic := "c".data, fixit_lines := [] }

def recTwoBrackets : TidyNotification :=
  { filename := "f.cpp".data, line := 1, cols := 2, note_type := "warning".data,
    note_info := "use".data, diagnostic := "x] here [check-a".data,
    fixit_lines := [] }

def recMiddle : TidyNotification :=
  { filename := "xy.cpp".data, line := 1, cols := 2, note_type := "warning".data,
    note_info := "m".data, diagnostic := "c".data, fixit_lines := [] }

def recDrive : TidyNotification :=
  { filename := "C:\\src\\file.cpp".data, line := 12, cols := 5,
    note_type := "warning".data, note_info := "unused variable".data,
    diagnostic := "check-x".data, fixit_lines := [] }

def recPosix : TidyNotification :=
  { filename := "/src/file.cpp".data, line := 12, cols := 5,
    note_type := "error".data, note_info := "bad thing".data,
    diagnostic := "check-y".data, fixit_lines := [] }

def reportLines : List Line :=
  ["pre".data, "a.cpp:1:2: warning: m [c]".data, "  int x;".data,
    "  ^".data, "b.cpp:3:4: error: n [d]".data, "  fix".data]

def recRound : TidyNotification :=
  { filename := "src/a.cpp".data, line := 3, cols := 4,
    note_type := "warning".data, note_info := "bad".data,
    diagnostic := "c".data, fixit_lines := [] }

/-! ### Theorems -/

theorem ne_of_classB (f : Char → Bool) {c d : Char}
    (hc : f c = true) (hd : f d = false) : c ≠ d := by
  intro h; subst h; rw [hc] at hd; cases hd

theorem isDigitC_toNat {c : Char} (h : isDigitC c = true) :
    48 ≤ c.toNat ∧ c.toNat ≤ 57 := by
  simpa [isDigitC, Bool.and_eq_true, decide_eq_true_iff] using h

theorem isWordC_toNat {c : Char} (h : isWordC c = true) :
    (48 ≤ c.toNat ∧ c.toNat ≤ 57) ∨ (65 ≤ c.toNat ∧ c.toNat ≤ 90) ∨
      (97 ≤ c.toNat ∧ c.toNat ≤ 122) ∨ c.toNat = 95 := by
  have := h
  simp only [isWordC, Bool.or_eq_true, Bool.and_eq_true, decide_eq_true_iff,
    beq_iff_eq] at this
  tauto

theorem isSpaceC_toNat {c : Char} (h : isSpaceC c = true) :
    c.toNat = 32 ∨ (9 ≤ c.toNat ∧ c.toNat ≤ 13) := by
  simpa [isSpaceC, Bool.or_eq_true, Bool.and_eq_true, decide_eq_true_iff] using h

theorem digit_not_spaceC {c : Char} (h : isDigitC c = true) : isSpaceC c = false := by
  have h2 := isDigitC_toNat h
  cases hs : isSpaceC c
  · rfl
  · rcases isSpaceC_toNat hs with h3 | h3 <;> omega

theorem word_not_spaceC {c : Char} (h : isWordC c = true) : isSpaceC c = false := by
  have h2 := isWordC_toNat h
  cases hs : isSpaceC c
  · rfl
  · rcases isSpaceC_toNat hs with h3 | h3 <;> rcases h2 with h2 | h2 | h2 | h2 <;> omega

theorem digit_ne_of_toNat {c : Char} {d : Char} (h : isDigitC c = true)
    (hd : d.toNat < 48 ∨ 57 < d.toNat) : c ≠ d := by
  intro e; subst e; have h2 := isDigitC_toNat h; omega

theorem word_ne_colon {c : Char} (h : isWordC c = true) : c ≠ ':' := by
  intro e; subst e
  have h2 := isWordC_toNat h
  have : (':' : Char).toNat = 58 := rfl
  rcases h2 with h2 | h2 | h2 | h2 <;> omega

theorem space_ne_colon {c : Char} (h : isSpaceC c = true) : c ≠ ':' := by
  intro e; subst e
  have h2 := isSpaceC_toNat h
  have : (':' : Char).toNat = 58 := rfl
  rcases h2 with h2 | h2 <;> omega

theorem digit_ne_colon {c : Char} (h : isDigitC c = true) : c ≠ ':' := by
  have h58 : (':' : Char).toNat = 58 := rfl
  exact digit_ne_of_toNat h (by omega)

theorem takeWhile_all {p : Char → Bool} {xs : List Char}
    (h : ∀ c ∈ xs, p c = true) : xs.takeWhile p = xs := by
  induction xs with
  | nil => rfl
  | cons x xs ih =>
    rw [List.takeWhile_cons, h x (by simp)]
    simp [ih fun c hc => h c (by simp [hc])]

theorem dropWhile_all {p : Char → Bool} {xs : List Char}
    (h : ∀ c ∈ xs, p c = true) : xs.dropWhile p = [] := by
  induction xs with
  | nil => rfl
  | cons x xs ih =>
    rw [List.dropWhile_cons, h x (by simp)]
    simp [ih fun c hc => h c (by simp [hc])]

theorem takeWhile_append_stop {p : Char → Bool} {xs : List Char} {y : Char}
    {ys : List Char} (h : ∀ c ∈ xs, p c = true) (hy : p y = false) :
    (xs ++ y :: ys).takeWhile p = xs := by
  induction xs with
  | nil => simp [List.takeWhile_cons, hy]
  | cons x xs ih =>
    rw [List.cons_append, List.takeWhile_cons, h x (by simp)]
    simp [ih fun c hc => h c (by simp [hc])]

theorem dropWhile_append_stop {p : Char → Bool} {xs : List Char} {y : Char}
    {ys : List Char} (h : ∀ c ∈ xs, p c = true) (hy : p y = false) :
    (xs ++ y :: ys).dropWhile p = y :: ys := by
  induction xs with
  | nil => simp [List.dropWhile_cons, hy]
  | cons x xs ih =>
    rw [List.cons_append, List.dropWhile_cons, h x (by simp)]
    simp [ih fun c hc => h c (by simp [hc])]

theorem dropWhile_head_false {p : Char → Bool} {xs ys : List Char} {y : Char}
    (h : xs.dropWhile p = y :: ys) : p y = false := by
  induction xs with
  | nil => cases h
  | cons x xs ih =>
    rw [List.dropWhile_cons] at h
    by_cases hx : p x = true
    · rw [hx] at h; simp at h; exact ih h
    · rw [Bool.not_eq_true] at hx; rw [hx] at h; simp at h
      rw [← h.1]; exact hx

theorem mem_split_first {α : Type} [DecidableEq α] {a : α} {l : List α}
    (h : a ∈ l) : ∃ s t, l = s ++ a :: t ∧ a ∉ s := by
  induction l with
  | nil => cases h
  | cons x xs ih =>
    by_cases hx : a = x
    · exact ⟨[], xs, by simp [hx], by simp⟩
    · have : a ∈ xs := by
        rcases List.mem_cons.mp h with h1 | h1
        · exact absurd h1 hx
        · exact h1
      obtain ⟨s, t, hst, hns⟩ := ih this
      exact ⟨x :: s, t, by simp [hst], by simp [hns, hx]⟩

theorem mem_split_last {α : Type} [DecidableEq α] {a : α} {l : List α}
    (h : a ∈ l) : ∃ s t, l = s ++ a :: t ∧ a ∉ t := by
  have h2 : a ∈ l.reverse := List.mem_reverse.mpr h
  obtain ⟨s, t, hst, hns⟩ := mem_split_first h2
  refine ⟨t.reverse, s.reverse, ?_, by simpa using hns⟩
  have := congrArg List.reverse hst
  simpa [List.reverse_append] using this

theorem lastC_cons_ne {α : Type} (a : α) {l : List α} (h : l ≠ []) :
    lastC (a :: l) = lastC l := by
  cases l with
  | nil => exact absurd rfl h
  | cons b xs => rfl

theorem lastC_append_right {α : Type} (xs : List α) {ys : List α} (h : ys ≠ []) :
    lastC (xs ++ ys) = lastC ys := by
  induction xs with
  | nil => rfl
  | cons x xs ih =>
    rw [List.cons_append, lastC_cons_ne x (by simp [h]), ih]

theorem lastC_concat {α : Type} (xs : List α) (y : α) :
    lastC (xs ++ [y]) = some y := by
  rw [lastC_append_right xs (by simp)]; rfl

theorem lastC_mem {α : Type} {l : List α} {a : α} (h : lastC l = some a) : a ∈ l := by
  induction l with
  | nil => cases h
  | cons x xs ih =>
    cases xs with
    | nil =>
      simp only [lastC] at h
      simp [← Option.some_inj.mp h]
    | cons b bs =>
      rw [lastC_cons_ne x (by simp)] at h
      simp [ih h]

theorem splitCols_ne_nil (l : Line) : splitCols l ≠ [] := by
  cases l with
  | nil => simp [splitCols]
  | cons c cs =>
    rw [splitCols]
    by_cases h : c = ':'
    · simp [h]
    · simp only [h, if_false]
      cases splitCols cs <;> simp

theorem splitCols_no_colon {l : Line} {s : Line} (h : s ∈ splitCols l) : ':' ∉ s := by
  induction l generalizing s with
  | nil =>
    simp only [splitCols, List.mem_singleton] at h
    simp [h]
  | cons c cs ih =>
    rw [splitCols] at h
    by_cases hc : c = ':'
    · rw [if_pos hc] at h
      rcases List.mem_cons.mp h with h1 | h1
      · simp [h1]
      · exact ih h1
    · rw [if_neg hc] at h
      cases hsp : splitCols cs with
      | nil => exact absurd hsp (splitCols_ne_nil cs)
      | cons s0 ss =>
        rw [hsp] at h
        rcases List.mem_cons.mp h with h1 | h1
        · subst h1
          intro hmem
          rcases List.mem_cons.mp hmem with h2 | h2
          · exact hc h2.symm
          · exact ih (by rw [hsp]; exact List.mem_cons_self s0 ss) h2
        · exact ih (by rw [hsp]; exact List.mem_cons_of_mem s0 h1)

theorem splitCols_nosplit {l : Line} (h : ':' ∉ l) : splitCols l = [l] := by
  induction l with
  | nil => rfl
  | cons c cs ih =>
    have hc : ¬ c = ':' := fun e => h (by simp [e])
    rw [splitCols, if_neg hc, ih (fun m => h (List.mem_cons_of_mem c m))]

theorem splitCols_append {A : Line} (rest : Line) (h : ':' ∉ A) :
    splitCols (A ++ ':' :: rest) = A :: splitCols rest := by
  induction A with
  | nil => simp [splitCols]
  | cons c cs ih =>
    have hc : ¬ c = ':' := fun e => h (by simp [e])
    rw [List.cons_append, splitCols, if_neg hc,
      ih (fun m => h (List.mem_cons_of_mem c m))]

theorem joinC_cons_ne {s : Line} {ss : List Line} (h : ss ≠ []) :
    joinC (s :: ss) = s ++ ':' :: joinC ss := by
  cases ss with
  | nil => exact absurd rfl h
  | cons t ts => rfl

theorem joinC_splitCols (l : Line) : joinC (splitCols l) = l := by
  induction l with
  | nil => rfl
  | cons c cs ih =>
    rw [splitCols]
    by_cases hc : c = ':'
    · rw [if_pos hc, joinC_cons_ne (splitCols_ne_nil cs), ih, hc]
      rfl
    · rw [if_neg hc]
      cases hsp : splitCols cs with
      | nil => exact absurd hsp (splitCols_ne_nil cs)
      | cons s0 ss =>
        rw [hsp] at ih
        cases ss with
        | nil =>
          simp only [joinC] at ih ⊢
          rw [ih]
        | cons t ts =>
          rw [joinC_cons_ne (by simp), List.cons_append, ← joinC_cons_ne (by simp), ih]

theorem dropWhile_idem (p : Char → Bool) (l : List Char) :
    (l.dropWhile p).dropWhile p = l.dropWhile p := by
  cases h : l.dropWhile p with
  | nil => rfl
  | cons y ys => rw [List.dropWhile_cons, dropWhile_head_false h]; simp

theorem pyStrip_cons_space {c : Char} (h : isSpaceC c = true) (l : Line) :
    pyStrip (c :: l) = pyStrip l := by
  unfold pyStrip
  rw [List.dropWhile_cons, h]
  simp

theorem dropWhile_append_posC {p : Char → Bool} {xs : List Char} {z : Char}
    {zs : List Char} (ys : List Char) (h : xs.dropWhile p = z :: zs) :
    (xs ++ ys).dropWhile p = z :: (zs ++ ys) := by
  induction xs with
  | nil => cases h
  | cons x xs ih =>
    rw [List.dropWhile_cons] at h
    rw [List.cons_append, List.dropWhile_cons]
    by_cases hx : p x = true
    · rw [hx] at h ⊢; simp only [if_true]; exact ih h
    · rw [Bool.not_eq_true] at hx
      rw [hx] at h ⊢
      simp only [Bool.false_eq_true, if_false] at h ⊢
      rw [List.cons_eq_cons] at h
      rw [← h.1, ← h.2]

theorem dropWhile_append_nilC {p : Char → Bool} {xs : List Char}
    (ys : List Char) (h : xs.dropWhile p = []) :
    (xs ++ ys).dropWhile p = ys.dropWhile p := by
  induction xs with
  | nil => rfl
  | cons x xs ih =>
    rw [List.dropWhile_cons] at h
    rw [List.cons_append, List.dropWhile_cons]
    by_cases hx : p x = true
    · rw [hx] at h ⊢; simp only [if_true]; exact ih h
    · rw [Bool.not_eq_true] at hx; rw [hx] at h; cases h

theorem pyStrip_concat_space {c : Char} (h : isSpaceC c = true) (l : Line) :
    pyStrip (l ++ [c]) = pyStrip l := by
  unfold pyStrip
  cases hd : l.dropWhile isSpaceC with
  | nil =>
    rw [dropWhile_append_nilC [c] hd]
    simp [List.dropWhile_cons, h]
  | cons d ds =>
    rw [dropWhile_append_posC [c] hd]
    have : (d :: (ds ++ [c])).reverse = c :: (d :: ds).reverse := by simp
    rw [this, List.dropWhile_cons, h]
    simp

theorem dropWhile_suffix_decomp (p : Char → Bool) (l : List Char) :
    ∃ t, l = t ++ l.dropWhile p := by
  induction l with
  | nil => exact ⟨[], rfl⟩
  | cons x xs ih =>
    rw [List.dropWhile_cons]
    by_cases hx : p x = true
    · obtain ⟨t, ht⟩ := ih
      rw [hx]
      exact ⟨x :: t, by simp [← ht]⟩
    · rw [Bool.not_eq_true] at hx
      rw [hx]
      exact ⟨[], by simp⟩

theorem lastC_reverse {α : Type} (l : List α) : lastC l.reverse = l.head? := by
  cases l with
  | nil => rfl
  | cons a as => rw [List.reverse_cons, lastC_concat]; rfl

theorem head?_reverse_eq_lastC {α : Type} (l : List α) : l.reverse.head? = lastC l := by
  have := lastC_reverse l.reverse
  rw [List.reverse_reverse] at this
  exact this.symm

theorem lastC_isSome_of_ne_nil {α : Type} {l : List α} (h : l ≠ []) :
    ∃ a, lastC l = some a := by
  induction l with
  | nil => exact absurd rfl h
  | cons x xs ih =>
    cases hx : xs with
    | nil => exact ⟨x, rfl⟩
    | cons b bs =>
      obtain ⟨a, ha⟩ := ih (by simp [hx])
      rw [hx] at ha
      exact ⟨a, by rw [lastC_cons_ne x (by simp), ha]⟩

theorem pyStrip_head_false {l : Line} {c : Char} {cs : Line}
    (h : pyStrip l = c :: cs) : isSpaceC c = false := by
  unfold pyStrip at h
  set y := l.dropWhile isSpaceC with hy
  set D := y.reverse.dropWhile isSpaceC with hD
  have hDrev : D = cs.reverse ++ [c] := by
    have := congrArg List.reverse h
    simpa using this
  have hlast : lastC y.reverse = some c := by
    obtain ⟨t, ht⟩ := dropWhile_suffix_decomp isSpaceC y.reverse
    rw [ht, lastC_append_right t (by rw [← hD, hDrev]; simp), ← hD, hDrev,
      lastC_concat]
  rw [lastC_reverse] at hlast
  cases hhy : y with
  | nil => rw [hhy] at hlast; cases hlast
  | cons d ds =>
    rw [hhy] at hlast
    have hdc : d = c := by simpa using hlast
    subst hdc
    exact dropWhile_head_false (by rw [← hy]; exact hhy)

theorem pyStrip_last_false {l : Line} {d : Char}
    (h : lastC (pyStrip l) = some d) : isSpaceC d = false := by
  unfold pyStrip at h
  rw [lastC_reverse] at h
  cases hD : (l.dropWhile isSpaceC).reverse.dropWhile isSpaceC with
  | nil => rw [hD] at h; cases h
  | cons e es =>
    rw [hD] at h
    have : e = d := by simpa using h
    subst this
    exact dropWhile_head_false hD

theorem pyStrip_of_clean {l : Line} {c d : Char}
    (hh : l.head? = some c) (hc : isSpaceC c = false)
    (hl : lastC l = some d) (hd : isSpaceC d = false) : pyStrip l = l := by
  unfold pyStrip
  have h1 : l.dropWhile isSpaceC = l := by
    cases l with
    | nil => cases hh
    | cons a as =>
      have : a = c := by simpa using hh
      subst this
      rw [List.dropWhile_cons, hc]
      simp
  rw [h1]
  have h2 : l.reverse.head? = some d := by rw [head?_reverse_eq_lastC]; exact hl
  have h3 : l.reverse.dropWhile isSpaceC = l.reverse := by
    cases hr : l.reverse with
    | nil => rfl
    | cons b bs =>
      rw [hr] at h2
      have : b = d := by simpa using h2
      subst this
      rw [List.dropWhile_cons, hd]
      simp
  rw [h3, List.reverse_reverse]

theorem pyStrip_idem (l : Line) : pyStrip (pyStrip l) = pyStrip l := by
  cases h : pyStrip l with
  | nil => rfl
  | cons c cs =>
    obtain ⟨d, hd⟩ := lastC_isSome_of_ne_nil (l := c :: cs) (by simp)
    exact pyStrip_of_clean (by simp) (pyStrip_head_false h)
      hd (pyStrip_last_false (by rw [h]; exact hd))

theorem mem_pyStrip {l : Line} {c : Char} (h : c ∈ pyStrip l) : c ∈ l := by
  unfold pyStrip at h
  rw [List.mem_reverse] at h
  obtain ⟨t, ht⟩ := dropWhile_suffix_decomp isSpaceC (l.dropWhile isSpaceC).reverse
  have h2 : c ∈ (l.dropWhile isSpaceC).reverse := by
    rw [ht]; exact List.mem_append_right t h
  rw [List.mem_reverse] at h2
  obtain ⟨t2, ht2⟩ := dropWhile_suffix_decomp isSpaceC l
  rw [ht2]
  exact List.mem_append_right t2 h2

theorem pyStrip_no_space {l : Line} (h : ∀ c ∈ l, isSpaceC c = false) :
    pyStrip l = l := by
  cases hl : l with
  | nil => rfl
  | cons a as =>
    obtain ⟨d, hd⟩ := lastC_isSome_of_ne_nil (l := a :: as) (by simp)
    refine pyStrip_of_clean (by simp) (h a (by rw [hl]; simp)) hd ?_
    exact h d (by rw [hl]; exact lastC_mem hd)

theorem removeAllF_irrel (pat : List Char) : ∀ f1 f2 s, s.length ≤ f1 →
    s.length ≤ f2 → removeAllF pat f1 s = removeAllF pat f2 s := by
  intro f1
  induction f1 with
  | zero =>
    intro f2 s h1 _
    have : s = [] := List.length_eq_zero.mp (Nat.le_zero.mp h1)
    subst this
    cases f2 <;> rfl
  | succ k ih =>
    intro f2 s h1 h2
    cases s with
    | nil => cases f2 <;> rfl
    | cons c rest =>
      cases f2 with
      | zero => simp at h2
      | succ m =>
        rw [removeAllF, removeAllF]
        by_cases hp : pat ≠ [] ∧ pat.isPrefixOf (c :: rest)
        · rw [if_pos hp, if_pos hp]
          apply ih
          · calc (List.drop (pat.length - 1) rest).length ≤ rest.length :=
                  by rw [List.length_drop]; omega
              _ ≤ k := by simp at h1; omega
          · calc (List.drop (pat.length - 1) rest).length ≤ rest.length :=
                  by rw [List.length_drop]; omega
              _ ≤ m := by simp at h2; omega
        · rw [if_neg hp, if_neg hp]
          have : rest.length ≤ k := by simp at h1; omega
          have h2' : rest.length ≤ m := by simp at h2; omega
          rw [ih m rest this h2']

theorem removeAll_nil (pat : List Char) : removeAll pat [] = [] := rfl

theorem removeAll_cons (pat : List Char) (c : Char) (rest : List Char) :
    removeAll pat (c :: rest) =
      if pat ≠ [] ∧ pat.isPrefixOf (c :: rest) then
        removeAll pat (List.drop pat.length (c :: rest))
      else c :: removeAll pat rest := by
  unfold removeAll
  rw [show (c :: rest).length = rest.length + 1 from rfl, removeAllF]
  by_cases hp : pat ≠ [] ∧ pat.isPrefixOf (c :: rest)
  · rw [if_pos hp, if_pos hp]
    obtain ⟨hne, _⟩ := hp
    cases hpat : pat with
    | nil => exact absurd hpat hne
    | cons p0 ps =>
      simp only [List.length_cons, List.drop_succ_cons, Nat.add_sub_cancel]
      apply removeAllF_irrel
      · rw [List.length_drop]; omega
      · exact Nat.le_refl _
  · rw [if_neg hp, if_neg hp]

theorem removeAll_skip {h0 : Char} {pt : List Char} {pre : List Char}
    (rest : List Char) (hpre : h0 ∉ pre) :
    removeAll (h0 :: pt) (pre ++ rest) = pre ++ removeAll (h0 :: pt) rest := by
  induction pre with
  | nil => rfl
  | cons c pre' ih =>
    rw [List.cons_append, removeAll_cons]
    have hc : c ≠ h0 := fun e => hpre (by simp [e])
    have : ¬ ((h0 :: pt) ≠ [] ∧ (h0 :: pt).isPrefixOf (c :: (pre' ++ rest))) := by
      rintro ⟨-, hp⟩
      rw [show (h0 :: pt).isPrefixOf (c :: (pre' ++ rest)) =
        (h0 == c && pt.isPrefixOf (pre' ++ rest)) from rfl] at hp
      simp only [Bool.and_eq_true, beq_iff_eq] at hp
      exact hc hp.1.symm
    rw [if_neg this, ih (fun m => hpre (List.mem_cons_of_mem c m)), List.cons_append]

theorem removeAll_head (pat rest : List Char) (h : pat ≠ []) :
    removeAll pat (pat ++ rest) = removeAll pat rest := by
  cases hpat : pat with
  | nil => exact absurd hpat h
  | cons p0 ps =>
    rw [← hpat]
    have hcons : pat ++ rest = p0 :: (ps ++ rest) := by rw [hpat]; rfl
    rw [hcons, removeAll_cons]
    have hp : pat.isPrefixOf (p0 :: (ps ++ rest)) := by
      rw [← hcons]
      exact List.isPrefixOf_iff_prefix.mpr ⟨rest, rfl⟩
    rw [if_pos ⟨h, hp⟩, ← hcons, List.drop_left]

theorem removeAll_no_occur {x : Char} {pat s : List Char}
    (hx : x ∈ pat) (hns : x ∉ s) : removeAll pat s = s := by
  induction s with
  | nil => rfl
  | cons c rest ih =>
    rw [removeAll_cons]
    have : ¬ (pat ≠ [] ∧ pat.isPrefixOf (c :: rest)) := by
      rintro ⟨-, hp⟩
      have := (List.isPrefixOf_iff_prefix.mp hp).subset hx
      exact hns this
    rw [if_neg this, ih (fun m => hns (List.mem_cons_of_mem c m))]

theorem mem_removeAllF {x : Char} {pat : List Char} :
    ∀ fuel s, x ∈ removeAllF pat fuel s → x ∈ s := by
  intro fuel
  induction fuel with
  | zero =>
    intro s h
    cases s with
    | nil => cases h
    | cons c rest => exact h
  | succ k ih =>
    intro s h
    cases s with
    | nil => cases h
    | cons c rest =>
      rw [removeAllF] at h
      by_cases hp : pat ≠ [] ∧ pat.isPrefixOf (c :: rest)
      · rw [if_pos hp] at h
        have := List.mem_of_mem_drop (ih _ h)
        exact List.mem_cons_of_mem c this
      · rw [if_neg hp] at h
        rcases List.mem_cons.mp h with h1 | h1
        · simp [h1]
        · exact List.mem_cons_of_mem c (ih _ h1)

theorem mem_removeAll {x : Char} {pat s : List Char}
    (h : x ∈ removeAll pat s) : x ∈ s := mem_removeAllF _ s h

theorem count_removeAllF_le (x : Char) (pat : List Char) :
    ∀ fuel s, (removeAllF pat fuel s).count x ≤ s.count x := by
  intro fuel
  induction fuel with
  | zero =>
    intro s
    cases s with
    | nil => simp [removeAllF]
    | cons c rest => exact Nat.le_refl _
  | succ k ih =>
    intro s
    cases s with
    | nil => simp [removeAllF]
    | cons c rest =>
      rw [removeAllF]
      by_cases hp : pat ≠ [] ∧ pat.isPrefixOf (c :: rest)
      · rw [if_pos hp]
        calc (removeAllF pat k (List.drop (pat.length - 1) rest)).count x
            ≤ (List.drop (pat.length - 1) rest).count x := ih _
          _ ≤ rest.count x := (List.drop_sublist _ _).count_le x
          _ ≤ (c :: rest).count x := by rw [List.count_cons]; omega
      · rw [if_neg hp]
        rw [List.count_cons, List.count_cons]
        have := ih rest
        omega

theorem count_removeAll_le (x : Char) (pat s : List Char) :
    (removeAll pat s).count x ≤ s.count x := count_removeAllF_le x pat _ s

theorem extractBracket_cons (c : Char) (rest : List Char) :
    extractBracket (c :: rest) =
      if c = '[' ∧ ']' ∈ rest then some ('[' :: upToLastClose rest)
      else extractBracket rest := rfl

theorem upToLastClose_eq {post : List Char} (mid : List Char)
    (hpost : ']' ∉ post) : upToLastClose (mid ++ ']' :: post) = mid ++ [']'] := by
  unfold upToLastClose
  rw [List.reverse_append, List.reverse_cons, List.append_assoc,
    show [']'] ++ mid.reverse = ']' :: mid.reverse from rfl]
  rw [dropWhile_append_stop (p := fun c => !(c = ']'))
    (fun c hc => by
      have : c ∈ post := List.mem_reverse.mp hc
      have hne : ¬ c = ']' := fun e => hpost (e ▸ this)
      simp [hne])
    (by simp)]
  simp

theorem extractBracket_eq {pre post : List Char} (mid : List Char)
    (hpre : '[' ∉ pre) (hpost : ']' ∉ post) :
    extractBracket (pre ++ '[' :: (mid ++ ']' :: post)) =
      some ('[' :: (mid ++ [']'])) := by
  induction pre with
  | nil =>
    rw [List.nil_append, extractBracket_cons]
    rw [if_pos ⟨rfl, by simp⟩, upToLastClose_eq mid hpost]
  | cons c pre' ih =>
    rw [List.cons_append, extractBracket_cons]
    have hc : ¬ c = '[' := fun e => hpre (by simp [e])
    rw [if_neg (by tauto)]
    exact ih (fun m => hpre (List.mem_cons_of_mem c m))

theorem extractBracket_sound {m b : List Char} (h : extractBracket m = some b) :
    ∃ pre mid post, m = pre ++ '[' :: (mid ++ ']' :: post) ∧ '[' ∉ pre ∧
      ']' ∉ post ∧ b = '[' :: (mid ++ [']']) := by
  induction m with
  | nil => cases h
  | cons c rest ih =>
    rw [extractBracket_cons] at h
    by_cases hc : c = '[' ∧ ']' ∈ rest
    · rw [if_pos hc] at h
      obtain ⟨mid, post, hmp, hnp⟩ := mem_split_last hc.2
      refine ⟨[], mid, post, ?_, by simp, hnp, ?_⟩
      · rw [List.nil_append, hc.1, hmp]
      · rw [← Option.some_inj.mp h, hmp, upToLastClose_eq mid hnp]
    · rw [if_neg hc] at h
      obtain ⟨pre, mid, post, hm, hpre, hpost, hb⟩ := ih h
      have hcne : c ≠ '[' := by
        intro e
        apply hc
        refine ⟨e, ?_⟩
        rw [hm]
        exact List.mem_append_right pre (by simp)
      refine ⟨c :: pre, mid, post, by simp [hm], ?_, hpost, hb⟩
      intro hmem
      rcases List.mem_cons.mp hmem with h1 | h1
      · exact hcne h1.symm
      · exact hpre h1

theorem digitChar_isDigit {m : Nat} (h : m < 10) : isDigitC (digitChar m) = true := by
  interval_cases m <;> decide

theorem digitChar_toNat {m : Nat} (h : m < 10) : (digitChar m).toNat = 48 + m := by
  interval_cases m <;> decide

theorem valNat_append_digit (xs : List Char) (d : Char) :
    valNat (xs ++ [d]) = 10 * valNat xs + (d.toNat - 48) := by
  simp [valNat, List.foldl_append]

theorem digitsRevF_val : ∀ fuel n, n ≤ fuel →
    valNat (digitsRevF fuel n).reverse = n := by
  intro fuel
  induction fuel with
  | zero =>
    intro n h
    have : n = 0 := Nat.le_zero.mp h
    subst this
    rfl
  | succ k ih =>
    intro n h
    rw [digitsRevF]
    by_cases hn : n = 0
    · subst hn; rfl
    · rw [if_neg hn, List.reverse_cons, valNat_append_digit]
      have hdiv : n / 10 ≤ k := by
        have h1 : n / 10 < n := Nat.div_lt_self (Nat.pos_of_ne_zero hn) (by omega)
        omega
      rw [ih (n / 10) hdiv, digitChar_toNat (Nat.mod_lt n (by omega))]
      omega

theorem valNat_natChars (n : Nat) : valNat (natChars n) = n := by
  unfold natChars
  by_cases hn : n = 0
  · subst hn; rfl
  · rw [if_neg hn]
    exact digitsRevF_val n n (Nat.le_refl n)

theorem digitsRevF_mem : ∀ fuel n c, c ∈ digitsRevF fuel n →
    ∃ m, m < 10 ∧ c = digitChar m := by
  intro fuel
  induction fuel with
  | zero => intro n c h; cases h
  | succ k ih =>
    intro n c h
    rw [digitsRevF] at h
    by_cases hn : n = 0
    · rw [if_pos hn] at h; cases h
    · rw [if_neg hn] at h
      rcases List.mem_cons.mp h with h1 | h1
      · exact ⟨n % 10, Nat.mod_lt n (by omega), h1⟩
      · exact ih (n / 10) c h1

theorem natChars_digits {n : Nat} {c : Char} (h : c ∈ natChars n) :
    isDigitC c = true := by
  unfold natChars at h
  by_cases hn : n = 0
  · rw [if_pos hn] at h
    have : c = '0' := by simpa using h
    subst this; decide
  · rw [if_neg hn] at h
    rw [List.mem_reverse] at h
    obtain ⟨m, hm, hc⟩ := digitsRevF_mem n n c h
    subst hc
    exact digitChar_isDigit hm

theorem natChars_ne_nil (n : Nat) : natChars n ≠ [] := by
  unfold natChars
  by_cases hn : n = 0
  · rw [if_pos hn]; simp
  · rw [if_neg hn]
    cases hf : n with
    | zero => exact absurd hf hn
    | succ k =>
      rw [digitsRevF, if_neg (by omega : ¬ k + 1 = 0)]
      simp

theorem intChars_safe {i : Int} {c : Char} (h : c ∈ intChars i) :
    c ≠ ':' ∧ c ≠ '[' ∧ c ≠ ']' ∧ isSpaceC c = false := by
  have hof : isDigitC c = true ∨ c = '-' := by
    unfold intChars at h
    by_cases hi : i < 0
    · rw [if_pos hi] at h
      rcases List.mem_cons.mp h with h1 | h1
      · right; exact h1
      · left; exact natChars_digits h1
    · rw [if_neg hi] at h
      left; exact natChars_digits h
  rcases hof with hd | hm
  · have h1 := isDigitC_toNat hd
    refine ⟨?_, ?_, ?_, digit_not_spaceC hd⟩
    · exact digit_ne_of_toNat hd (by right; decide)
    · exact digit_ne_of_toNat hd (by right; decide)
    · exact digit_ne_of_toNat hd (by right; decide)
  · subst hm; refine ⟨by decide, by decide, by decide, by decide⟩

theorem pyIntCore_cons (d : Char) (rest : List Char) :
    pyIntCore (d :: rest) =
      if d = '-' then
        if rest ≠ [] ∧ rest.all isDigitC then .ok (-(valNat rest : Int))
        else .error .badInt
      else if d = '+' then
        if rest ≠ [] ∧ rest.all isDigitC then .ok ((valNat rest : Int))
        else .error .badInt
      else if (d :: rest).all isDigitC then .ok ((valNat (d :: rest) : Int))
      else .error .badInt := rfl

theorem pyInt_digits {ds : List Char} (hne : ds ≠ [])
    (hd : ∀ c ∈ ds, isDigitC c = true) : pyInt ds = .ok ((valNat ds : Int)) := by
  unfold pyInt
  rw [pyStrip_no_space (fun c hc => digit_not_spaceC (hd c hc))]
  cases ds with
  | nil => exact absurd rfl hne
  | cons d rest =>
    rw [pyIntCore_cons]
    have hdd : isDigitC d = true := hd d (by simp)
    rw [if_neg (digit_ne_of_toNat hdd (by left; decide)),
      if_neg (digit_ne_of_toNat hdd (by left; decide)),
      if_pos (List.all_eq_true.mpr (fun c hc => hd c hc))]

theorem pyInt_intChars (i : Int) : pyInt (intChars i) = .ok i := by
  unfold intChars
  by_cases hi : i < 0
  · rw [if_pos hi]
    unfold pyInt
    rw [pyStrip_no_space (fun c hc => by
      rcases List.mem_cons.mp hc with h1 | h1
      · subst h1; decide
      · exact digit_not_spaceC (natChars_digits h1))]
    rw [pyIntCore_cons, if_pos rfl,
      if_pos ⟨natChars_ne_nil _, List.all_eq_true.mpr (fun c hc => natChars_digits hc)⟩,
      valNat_natChars]
    have : -((i.natAbs : Nat) : Int) = i := by omega
    rw [this]
  · rw [if_neg hi]
    rw [pyInt_digits (natChars_ne_nil _) (fun c hc => natChars_digits hc),
      valNat_natChars]
    have : ((i.toNat : Nat) : Int) = i := by omega
    rw [this]

theorem digitsThenColon_complete {d1 : List Char} (r : List Char)
    (hne : d1 ≠ []) (hd : ∀ c ∈ d1, isDigitC c = true) :
    digitsThenColon (d1 ++ ':' :: r) = some r := by
  unfold digitsThenColon
  rw [takeWhile_append_stop hd (by decide), dropWhile_append_stop hd (by decide)]
  rw [if_neg hne]
  simp

theorem wordsThenColon_complete {S : List Char} (r : List Char)
    (hne : S ≠ []) (hw : ∀ c ∈ S, isWordC c = true) :
    wordsThenColon (S ++ ':' :: r) = some r := by
  unfold wordsThenColon
  rw [takeWhile_append_stop hw (by decide), dropWhile_append_stop hw (by decide)]
  rw [if_neg hne]
  simp

theorem bracketTail_complete (B C : List Char) :
    bracketTail (B ++ '[' :: (C ++ [']'])) = true := by
  unfold bracketTail
  have hrev : (B ++ '[' :: (C ++ [']'])).reverse =
      ']' :: (C.reverse ++ '[' :: B.reverse) := by
    rw [List.reverse_append, List.reverse_cons, List.reverse_append]
    simp
  rw [hrev]
  simp

theorem headerMatch_cons (c : Char) (rest : Line) :
    headerMatch (c :: rest) =
      ((decide (c = ':') && tailMatch rest) || headerMatch rest) := rfl

theorem tailMatch_complete {d1 d2 S : List Char} {wc : Char} (B C : List Char)
    (h1 : d1 ≠ []) (hd1 : ∀ c ∈ d1, isDigitC c = true)
    (h2 : d2 ≠ []) (hd2 : ∀ c ∈ d2, isDigitC c = true)
    (hw : isSpaceC wc = true)
    (h3 : S ≠ []) (hS : ∀ c ∈ S, isWordC c = true) :
    tailMatch (d1 ++ ':' :: (d2 ++ ':' :: (wc :: (S ++ ':' ::
      (B ++ '[' :: (C ++ [']'])))))) = true := by
  unfold tailMatch
  simp only [digitsThenColon_complete _ h1 hd1, digitsThenColon_complete _ h2 hd2,
    wordsThenColon_complete _ h3 hS, hw, bracketTail_complete]
  rfl

theorem headerMatch_complete {A d1 d2 S : List Char} {wc : Char} (B C : List Char)
    (h1 : d1 ≠ []) (hd1 : ∀ c ∈ d1, isDigitC c = true)
    (h2 : d2 ≠ []) (hd2 : ∀ c ∈ d2, isDigitC c = true)
    (hw : isSpaceC wc = true)
    (h3 : S ≠ []) (hS : ∀ c ∈ S, isWordC c = true) :
    headerMatch (A ++ ':' :: (d1 ++ ':' :: (d2 ++ ':' :: (wc :: (S ++ ':' ::
      (B ++ '[' :: (C ++ [']']))))))) = true := by
  induction A with
  | nil =>
    rw [List.nil_append, headerMatch_cons]
    rw [tailMatch_complete B C h1 hd1 h2 hd2 hw h3 hS]
    simp
  | cons a A' ih =>
    rw [List.cons_append, headerMatch_cons, ih]
    simp

theorem bracketTail_ends {cs : List Char} (h : bracketTail cs = true) :
    lastC cs = some ']' ∧ cs ≠ [] := by
  unfold bracketTail at h
  cases hr : cs.reverse with
  | nil => rw [hr] at h; cases h
  | cons c rest =>
    simp only [hr, Bool.and_eq_true, decide_eq_true_iff] at h
    have hc : c = ']' := h.1
    have hcs : cs = rest.reverse ++ [c] := by
      have := congrArg List.reverse hr
      simpa using this
    subst hc
    exact ⟨by rw [hcs, lastC_concat], by rw [hcs]; simp⟩

theorem digitsThenColon_decomp {cs r : List Char}
    (h : digitsThenColon cs = some r) : ∃ pre, cs = pre ++ ':' :: r := by
  unfold digitsThenColon at h
  by_cases h1 : cs.takeWhile isDigitC = []
  · rw [if_pos h1] at h; cases h
  · rw [if_neg h1] at h
    by_cases h2 : (cs.dropWhile isDigitC).head? = some ':'
    · rw [if_pos h2] at h
      refine ⟨cs.takeWhile isDigitC, ?_⟩
      cases hdp : cs.dropWhile isDigitC with
      | nil => rw [hdp] at h2; cases h2
      | cons x xs =>
        rw [hdp] at h2
        have hx : x = ':' := by simpa using h2
        rw [hdp] at h
        have hr : r = xs := by simpa using h.symm
        rw [hr, ← hx, ← hdp]
        exact (List.takeWhile_append_dropWhile _ _).symm
    · rw [if_neg h2] at h; cases h

theorem wordsThenColon_decomp {cs r : List Char}
    (h : wordsThenColon cs = some r) : ∃ pre, cs = pre ++ ':' :: r := by
  unfold wordsThenColon at h
  by_cases h1 : cs.takeWhile isWordC = []
  · rw [if_pos h1] at h; cases h
  · rw [if_neg h1] at h
    by_cases h2 : (cs.dropWhile isWordC).head? = some ':'
    · rw [if_pos h2] at h
      refine ⟨cs.takeWhile isWordC, ?_⟩
      cases hdp : cs.dropWhile isWordC with
      | nil => rw [hdp] at h2; cases h2
      | cons x xs =>
        rw [hdp] at h2
        have hx : x = ':' := by simpa using h2
        rw [hdp] at h
        have hr : r = xs := by simpa using h.symm
        rw [hr, ← hx, ← hdp]
        exact (List.takeWhile_append_dropWhile _ _).symm
    · rw [if_neg h2] at h; cases h

theorem tailMatch_ends {cs : List Char} (h : tailMatch cs = true) :
    lastC cs = some ']' ∧ cs ≠ [] := by
  unfold tailMatch at h
  cases hm1 : digitsThenColon cs with
  | none => simp only [hm1] at h; cases h
  | some r1 =>
    simp only [hm1] at h
    cases hm2 : digitsThenColon r1 with
    | none => simp only [hm2] at h; cases h
    | some r2 =>
      simp only [hm2] at h
      cases hr2 : r2 with
      | nil => simp only [hr2] at h; cases h
      | cons w r3 =>
        simp only [hr2] at h
        cases hm3 : wordsThenColon r3 with
        | none => simp only [hm3] at h; simp at h
        | some r4 =>
          simp only [hm3, Bool.and_eq_true] at h
          have hb : bracketTail r4 = true := h.2
          obtain ⟨hlast, hne⟩ := bracketTail_ends hb
          obtain ⟨p3, hp3⟩ := wordsThenColon_decomp hm3
          have hr3 : lastC r3 = some ']' ∧ r3 ≠ [] := by
            rw [hp3]
            constructor
            · rw [lastC_append_right p3 (by simp), lastC_cons_ne ':' hne, hlast]
            · simp
          have hr2l : lastC r2 = some ']' ∧ r2 ≠ [] := by
            rw [hr2]
            exact ⟨by rw [lastC_cons_ne w hr3.2, hr3.1], by simp⟩
          obtain ⟨p2, hp2⟩ := digitsThenColon_decomp hm2
          have hr1 : lastC r1 = some ']' ∧ r1 ≠ [] := by
            rw [hp2]
            constructor
            · rw [lastC_append_right p2 (by simp), lastC_cons_ne ':' hr2l.2, hr2l.1]
            · simp
          obtain ⟨p1, hp1⟩ := digitsThenColon_decomp hm1
          rw [hp1]
          constructor
          · rw [lastC_append_right p1 (by simp), lastC_cons_ne ':' hr1.2, hr1.1]
          · simp

theorem headerMatch_ends {L : Line} (h : headerMatch L = true) :
    lastC L = some ']' := by
  induction L with
  | nil => cases h
  | cons c rest ih =>
    rw [headerMatch_cons, Bool.or_eq_true] at h
    rcases h with h1 | h1
    · rw [Bool.and_eq_true] at h1
      obtain ⟨hlast, hne⟩ := tailMatch_ends h1.2
      rw [lastC_cons_ne c hne, hlast]
    · have hne : rest ≠ [] := by
        intro e; rw [e] at h1; cases h1
      rw [lastC_cons_ne c hne, ih h1]

theorem except_map_ok {ε α β : Type} {f : α → β} {x : Except ε α} {y : β}
    (h : Except.map f x = .ok y) : ∃ a, x = .ok a ∧ y = f a := by
  cases x with
  | error e => simp [Except.map] at h
  | ok a =>
    refine ⟨a, rfl, ?_⟩
    have : Except.map f (Except.ok a) = (Except.ok (f a) : Except ε β) := rfl
    rw [this] at h
    simpa using h.symm

theorem mk_ok_fields {platform cwd sep : List Char} {l : Line} {r : TidyNotification}
    (h : mkNotification platform cwd sep l = .ok r) :
    ∃ f l0 c0 t0 m0 b li co,
      slicedAfterMerge platform l = [f, l0, c0, t0, m0] ∧
      extractBracket m0 = some b ∧ pyInt l0 = .ok li ∧ pyInt c0 = .ok co ∧
      r = { filename := removeAll (cwd ++ sep) f, line := li, cols := co,
            note_type := pyStrip t0, note_info := pyStrip (removeAll b m0),
            diagnostic := (b.drop 1).dropLast, fixit_lines := [] } := by
  unfold mkNotification at h
  split at h
  · rename_i f l0 c0 t0 m0 hs
    split at h
    · exact Except.noConfusion h
    · rename_i b hb
      split at h
      · rename_i li co hli hco
        exact ⟨f, l0, c0, t0, m0, b, li, co, hs, hb, hli, hco, (Except.ok.inj h).symm⟩
      · exact Except.noConfusion h
      · exact Except.noConfusion h
  · exact Except.noConfusion h

theorem mk_ok_build {platform cwd sep : List Char} {l : Line}
    {f l0 c0 t0 m0 b : List Char} {li co : Int}
    (h5 : slicedAfterMerge platform l = [f, l0, c0, t0, m0])
    (hb : extractBracket m0 = some b)
    (hli : pyInt l0 = .ok li) (hco : pyInt c0 = .ok co) :
    mkNotification platform cwd sep l =
      .ok { filename := removeAll (cwd ++ sep) f, line := li, cols := co,
            note_type := pyStrip t0, note_info := pyStrip (removeAll b m0),
            diagnostic := (b.drop 1).dropLast, fixit_lines := [] } := by
  unfold mkNotification
  simp only [h5, hb, hli, hco]

theorem mk_fixit_nil {platform cwd sep : List Char} {l : Line} {r : TidyNotification}
    (h : mkNotification platform cwd sep l = .ok r) : r.fixit_lines = [] := by
  obtain ⟨f, l0, c0, t0, m0, b, li, co, -, -, -, -, hr⟩ := mk_ok_fields h
  rw [hr]

theorem runLines_nil (platform cwd sep : List Char) (st) :
    runLines platform cwd sep st [] = .ok st := rfl

theorem runLines_cons (platform cwd sep : List Char) (st) (l : Line) (ls : List Line) :
    runLines platform cwd sep st (l :: ls) =
      match parseStep platform cwd sep st l with
      | .error e => .error e
      | .ok st2 => runLines platform cwd sep st2 ls := rfl

theorem parseAux_nil (platform cwd sep : List Char) (cur) :
    parseAux platform cwd sep cur [] = .ok cur.toList := rfl

theorem parseAux_cons (platform cwd sep : List Char) (cur) (l : Line) (ls : List Line) :
    parseAux platform cwd sep cur (l :: ls) =
      (if headerMatch l = true then
        match mkNotification platform cwd sep l with
        | .error e => .error e
        | .ok n =>
          Except.map (fun res => cur.toList ++ res) (parseAux platform cwd sep (some n) ls)
      else
        match cur with
        | some c => parseAux platform cwd sep (some (addFixit c l)) ls
        | none => parseAux platform cwd sep none ls) := rfl

theorem specGroups_cons (l : Line) (ls : List Line) :
    specGroups (l :: ls) =
      (if headerMatch l = true then
        (ls.takeWhile fun x => !headerMatch x) :: specGroups ls
      else specGroups ls) := rfl

theorem runLines_append (platform cwd sep : List Char) (xs : List Line) :
    ∀ st (ys : List Line),
      runLines platform cwd sep st (xs ++ ys) =
        match runLines platform cwd sep st xs with
        | .error e => .error e
        | .ok st2 => runLines platform cwd sep st2 ys := by
  induction xs with
  | nil => intro st ys; rw [List.nil_append, runLines_nil]
  | cons x xs ih =>
    intro st ys
    rw [List.cons_append, runLines_cons, runLines_cons]
    cases hs : parseStep platform cwd sep st x with
    | error e => rfl
    | ok st2 => exact ih st2 ys

theorem runLines_eq_parseAux (platform cwd sep : List Char) (ls : List Line) :
    ∀ (done : List TidyNotification) (cur : Option TidyNotification),
      Except.map (fun st => st.1 ++ st.2.toList)
          (runLines platform cwd sep (done, cur) ls) =
        Except.map (fun res => done ++ res) (parseAux platform cwd sep cur ls) := by
  induction ls with
  | nil =>
    intro done cur
    rw [runLines_nil, parseAux_nil]
    rfl
  | cons l ls ih =>
    intro done cur
    rw [runLines_cons, parseAux_cons]
    unfold parseStep
    by_cases hh : headerMatch l = true
    · rw [if_pos hh, if_pos hh]
      cases hmk : mkNotification platform cwd sep l with
      | error e => rfl
      | ok n =>
        simp only []
        rw [ih (done ++ cur.toList) (some n)]
        cases parseAux platform cwd sep (some n) ls with
        | error e => rfl
        | ok res =>
          show Except.ok ((done ++ cur.toList) ++ res) =
            Except.ok (done ++ (cur.toList ++ res))
          rw [List.append_assoc]
    · rw [if_neg hh, if_neg hh]
      cases cur with
      | some c => exact ih done (some (addFixit c l))
      | none => exact ih done none

theorem parse_eq_map_parseAux (platform cwd sep : List Char)
    (prior : List TidyNotification) (lines : List Line) :
    parse_tidy_output platform cwd sep prior lines =
      Except.map (fun res => prior ++ res) (parseAux platform cwd sep none lines) := by
  unfold parse_tidy_output
  exact runLines_eq_parseAux platform cwd sep lines prior none

theorem parseAux_fixits (platform cwd sep : List Char) (ls : List Line) :
    (∀ res, parseAux platform cwd sep none ls = .ok res →
      res.map (fun r => r.fixit_lines) = specGroups ls) ∧
    (∀ c res, parseAux platform cwd sep (some c) ls = .ok res →
      res.map (fun r => r.fixit_lines) =
        (c.fixit_lines ++ ls.takeWhile (fun x => !headerMatch x)) :: specGroups ls) := by
  induction ls with
  | nil =>
    constructor
    · intro res h
      rw [parseAux_nil] at h
      have : ([] : List TidyNotification) = res := by simpa using Except.ok.inj h
      rw [← this]
      rfl
    · intro c res h
      rw [parseAux_nil] at h
      have : [c] = res := by simpa using Except.ok.inj h
      rw [← this]
      simp [specGroups]
  | cons l ls ih =>
    constructor
    · intro res h
      rw [parseAux_cons] at h
      by_cases hh : headerMatch l = true
      · rw [if_pos hh] at h
        cases hmk : mkNotification platform cwd sep l with
        | error e => simp only [hmk] at h; exact Except.noConfusion h
        | ok n =>
          simp only [hmk] at h
          obtain ⟨res', hres', hform⟩ := except_map_ok h
          have hn := ih.2 n res' hres'
          rw [mk_fixit_nil hmk, List.nil_append] at hn
          rw [hform]
          show res'.map (fun r => r.fixit_lines) = specGroups (l :: ls)
          rw [specGroups_cons, if_pos hh, hn]
      · rw [if_neg hh] at h
        rw [specGroups_cons, if_neg hh]
        exact ih.1 res h
    · intro c res h
      rw [parseAux_cons] at h
      by_cases hh : headerMatch l = true
      · rw [if_pos hh] at h
        cases hmk : mkNotification platform cwd sep l with
        | error e => simp only [hmk] at h; exact Except.noConfusion h
        | ok n =>
          simp only [hmk] at h
          obtain ⟨res', hres', hform⟩ := except_map_ok h
          have hn := ih.2 n res' hres'
          rw [mk_fixit_nil hmk, List.nil_append] at hn
          rw [hform]
          show (c :: res').map (fun r => r.fixit_lines) =
            (c.fixit_lines ++ (l :: ls).takeWhile (fun x => !headerMatch x)) ::
              specGroups (l :: ls)
          rw [List.map_cons, hn, List.takeWhile_cons, hh]
          simp only [Bool.not_true, Bool.false_eq_true, if_false]
          rw [List.append_nil, specGroups_cons, if_pos hh]
      · rw [if_neg hh] at h
        have hn := ih.2 (addFixit c l) res h
        rw [hn]
        show ((addFixit c l).fixit_lines ++ ls.takeWhile (fun x => !headerMatch x)) ::
            specGroups ls =
          (c.fixit_lines ++ (l :: ls).takeWhile (fun x => !headerMatch x)) ::
            specGroups (l :: ls)
        rw [List.takeWhile_cons]
        have hnh : (!headerMatch l) = true := by
          rw [Bool.not_eq_true] at hh
          rw [hh]
          rfl
        rw [hnh]
        simp only [if_true]
        rw [specGroups_cons, if_neg hh]
        unfold addFixit
        simp

theorem lastC_colon_chunk {y : List Char} (x : List Char) (h : y ≠ []) :
    lastC (x ++ ':' :: y) = lastC y := by
  rw [lastC_append_right x (by simp), lastC_cons_ne ':' h]

theorem count_one_split {fn : List Char} (h : fn.count ':' = 1) :
    ∃ fa fb, fn = fa ++ ':' :: fb ∧ ':' ∉ fa ∧ ':' ∉ fb := by
  have hm : ':' ∈ fn := List.count_pos_iff.mp (by omega)
  obtain ⟨fa, fb, hsplit, hna⟩ := mem_split_first hm
  refine ⟨fa, fb, hsplit, hna, ?_⟩
  intro hmem
  rw [hsplit, List.count_append] at h
  have hca : fa.count ':' = 0 := List.count_eq_zero.mpr hna
  have h2 : 0 < fb.count ':' := List.count_pos_iff.mpr hmem
  have h1 : (':' :: fb).count ':' = fb.count ':' + 1 := by simp [List.count_cons]
  omega

theorem slicedAfterMerge_cases {platform : List Char} {l : Line}
    {f l0 c0 t0 m0 : List Char}
    (h : slicedAfterMerge platform l = [f, l0, c0, t0, m0]) :
    splitCols l = [f, l0, c0, t0, m0] ∨
      ("win32".data.isPrefixOf platform = true ∧
        ∃ a b2, f = a ++ ':' :: b2 ∧ ':' ∉ a ∧ ':' ∉ b2 ∧
          splitCols l = [a, b2, l0, c0, t0, m0]) := by
  unfold slicedAfterMerge at h
  by_cases hc : "win32".data.isPrefixOf platform ∧ 5 < (splitCols l).length
  · rw [if_pos hc] at h
    right
    refine ⟨by simpa using hc.1, ?_⟩
    cases hsp : splitCols l with
    | nil => exact absurd hsp (splitCols_ne_nil l)
    | cons a rest1 =>
      cases rest1 with
      | nil =>
        rw [hsp] at hc
        simp at hc
      | cons b2 rest =>
        rw [hsp] at h
        simp only [] at h
        have hf : f = a ++ ':' :: b2 := by
          have := (List.cons_eq_cons.mp h).1
          exact this.symm
        have hrest : rest = [l0, c0, t0, m0] := (List.cons_eq_cons.mp h).2
        refine ⟨a, b2, hf, ?_, ?_, by rw [hrest]⟩
        · exact splitCols_no_colon (by rw [hsp]; simp)
        · exact splitCols_no_colon (by rw [hsp]; simp)
  · rw [if_neg hc] at h
    left
    exact h

theorem mk_m0_ends {platform : List Char} {l : Line}
    {f l0 c0 t0 m0 : List Char}
    (hend : lastC l = some ']')
    (hs : slicedAfterMerge platform l = [f, l0, c0, t0, m0])
    (hm0 : m0 ≠ []) : lastC m0 = some ']' := by
  have hj := joinC_splitCols l
  rcases slicedAfterMerge_cases hs with hc | ⟨-, a, b2, -, -, -, hc⟩
  · rw [hc] at hj
    have : joinC [f, l0, c0, t0, m0] =
        f ++ ':' :: (l0 ++ ':' :: (c0 ++ ':' :: (t0 ++ ':' :: m0))) := by
      rw [joinC_cons_ne (by simp), joinC_cons_ne (by simp),
        joinC_cons_ne (by simp), joinC_cons_ne (by simp)]
      rfl
    rw [this] at hj
    rw [← hj, lastC_colon_chunk _ (by simp), lastC_colon_chunk _ (by simp),
      lastC_colon_chunk _ (by simp), lastC_colon_chunk _ hm0] at hend
    exact hend
  · rw [hc] at hj
    have : joinC [a, b2, l0, c0, t0, m0] =
        a ++ ':' :: (b2 ++ ':' :: (l0 ++ ':' :: (c0 ++ ':' ::
          (t0 ++ ':' :: m0)))) := by
      rw [joinC_cons_ne (by simp), joinC_cons_ne (by simp),
        joinC_cons_ne (by simp), joinC_cons_ne (by simp), joinC_cons_ne (by simp)]
      rfl
    rw [this] at hj
    rw [← hj, lastC_colon_chunk _ (by simp), lastC_colon_chunk _ (by simp),
      lastC_colon_chunk _ (by simp), lastC_colon_chunk _ (by simp),
      lastC_colon_chunk _ hm0] at hend
    exact hend

theorem removeAll_self {pat : List Char} (h : pat ≠ []) : removeAll pat pat = [] := by
  have h2 := removeAll_head pat [] h
  rw [List.append_nil] at h2
  rw [h2]
  rfl

theorem mk_msg_fields {platform cwd sep : List Char} {l : Line}
    {r : TidyNotification} {f l0 c0 t0 pre mid : List Char}
    (hs : slicedAfterMerge platform l = [f, l0, c0, t0, pre ++ '[' :: (mid ++ [']'])])
    (hpre : '[' ∉ pre)
    (h : mkNotification platform cwd sep l = .ok r) :
    r.diagnostic = mid ∧ r.note_info = pyStrip pre := by
  obtain ⟨f', l0', c0', t0', m0, b, li, co, hs', hb, hli, hco, hr⟩ := mk_ok_fields h
  rw [hs] at hs'
  have hm0 : m0 = pre ++ '[' :: (mid ++ [']']) := by
    have h5 := List.cons_eq_cons.mp hs'
    have h4 := List.cons_eq_cons.mp h5.2
    have h3 := List.cons_eq_cons.mp h4.2
    have h2 := List.cons_eq_cons.mp h3.2
    have h1 := List.cons_eq_cons.mp h2.2
    exact h1.1.symm
  subst hm0
  have hx := @extractBracket_eq pre [] mid hpre (by simp)
  rw [hx] at hb
  have hbeq : b = '[' :: (mid ++ [']']) := (Option.some_inj.mp hb).symm
  subst hbeq
  constructor
  · rw [hr]
    show ((('[' :: (mid ++ [']'])).drop 1).dropLast) = mid
    rw [List.drop_one, List.tail_cons, List.dropLast_concat]
  · rw [hr]
    show pyStrip (removeAll ('[' :: (mid ++ [']'])) (pre ++ '[' :: (mid ++ [']']))) =
      pyStrip pre
    rw [removeAll_skip _ hpre, removeAll_self (by simp), List.append_nil]

theorem c1_excerpt_grouping (platform cwd sep : List Char) (lines : List Line)
    (notes : List TidyNotification)
    (h : parse_tidy_output platform cwd sep [] lines = .ok notes) :
    notes.map (fun r => r.fixit_lines) = specGroups lines := by
  rw [parse_eq_map_parseAux] at h
  obtain ⟨res, hres, hform⟩ := except_map_ok h
  rw [hform]
  have hfix := (parseAux_fixits platform cwd sep lines).1 res hres
  simpa using hfix

theorem c1_excerpt_grouping_witness :
    parse_tidy_output "linux".data "/w".data "/".data [] reportLines =
      .ok [recA, recB] ∧
    [recA, recB].map (fun r => r.fixit_lines) = specGroups reportLines :=
  ⟨by decide,
    c1_excerpt_grouping "linux".data "/w".data "/".data reportLines
      [recA, recB] (by decide)⟩

theorem c3_log_directive :
    (∀ r : TidyNotification, log_command r = logDirectiveForm r) ∧
    log_command recNote =
      "::notice file=a.cpp,line=3,title=a.cpp:3:1 [c]::m".data ∧
    log_command recWarn =
      "::warning file=a.cpp,line=3,title=a.cpp:3:1 [c]::m".data :=
  ⟨fun _ => rfl, by decide, by decide⟩

theorem c4_field_count_aborts :
    (∀ platform cwd sep l, (slicedAfterMerge platform l).length ≠ 5 →
      mkNotification platform cwd sep l =
        .error (.fieldCount (slicedAfterMerge platform l).length)) ∧
    (∀ platform cwd sep prior pre l post st e,
      runLines platform cwd sep (prior, none) pre = .ok st →
      headerMatch l = true →
      mkNotification platform cwd sep l = .error e →
      parse_tidy_output platform cwd sep prior (pre ++ l :: post) = .error e) := by
  constructor
  · intro platform cwd sep l hlen
    unfold mkNotification
    split
    · rename_i f l0 c0 t0 m0 hs
      rw [hs] at hlen
      simp at hlen
    · rfl
  · intro platform cwd sep prior pre l post st e hpre hl hmk
    have hstep : parseStep platform cwd sep st l = .error e := by
      unfold parseStep
      rw [if_pos hl]
      simp only [hmk]
    unfold parse_tidy_output
    rw [runLines_append]
    simp only [hpre, runLines_cons, hstep]
    rfl

theorem c4_field_count_aborts_witness :
    mkNotification "linux".data "/w".data "/".data
      "a:b:1:2: warning: m [c]".data = .error (.fieldCount 6) ∧
    parse_tidy_output "linux".data "/w".data "/".data []
      ["a:b:1:2: warning: m [c]".data] = .error (.fieldCount 6) := by
  have h1 : mkNotification "linux".data "/w".data "/".data
      "a:b:1:2: warning: m [c]".data = .error (.fieldCount 6) :=
    c4_field_count_aborts.1 "linux".data "/w".data "/".data
      "a:b:1:2: warning: m [c]".data (by decide)
  refine ⟨h1, ?_⟩
  have h2 := c4_field_count_aborts.2 "linux".data "/w".data "/".data [] []
    "a:b:1:2: warning: m [c]".data [] ([], none) (.fieldCount 6) rfl (by decide) h1
  simpa using h2

theorem c5_merge_condition :
    (∀ platform l, "win32".data.isPrefixOf platform = false →
      slicedAfterMerge platform l = splitCols l) ∧
    (∀ platform l, (splitCols l).length ≤ 5 →
      slicedAfterMerge platform l = splitCols l) ∧
    (∀ platform l a b rest, "win32".data.isPrefixOf platform = true →
      splitCols l = a :: b :: rest → 5 < (splitCols l).length →
      slicedAfterMerge platform l = (a ++ ':' :: b) :: rest) ∧
    mkNotification "win32".data "D:\\w".data "\\".data
      "C:\\src\\file.cpp:12:5: warning: unused variable [check-x]".data =
      .ok recDrive ∧
    mkNotification "linux".data "/w".data "/".data
      "/src/file.cpp:12:5: error: bad thing [check-y]".data = .ok recPosix := by
  refine ⟨?_, ?_, ?_, by decide, by decide⟩
  · intro platform l hp
    unfold slicedAfterMerge
    rw [if_neg]
    rintro ⟨h1, -⟩
    rw [hp] at h1
    cases h1
  · intro platform l hlen
    unfold slicedAfterMerge
    rw [if_neg]
    rintro ⟨-, h2⟩
    omega
  · intro platform l a b rest hwin hsp hlen
    unfold slicedAfterMerge
    rw [if_pos ⟨hwin, hlen⟩]
    simp only [hsp]

theorem c5_merge_condition_witness :
    slicedAfterMerge "linux".data "a:b:1:2: w: m [c]".data =
      splitCols "a:b:1:2: w: m [c]".data ∧
    slicedAfterMerge "win32".data "f.cpp:1:2: w: m [c]".data =
      splitCols "f.cpp:1:2: w: m [c]".data ∧
    slicedAfterMerge "win32".data "a:b:1:2: w: m [c]".data =
      ("a".data ++ ':' :: "b".data) ::
        ["1".data, "2".data, " w".data, " m [c]".data] :=
  ⟨c5_merge_condition.1 "linux".data _ (by decide),
   c5_merge_condition.2.1 "win32".data _ (by decide),
   c5_merge_condition.2.2.1 "win32".data "a:b:1:2: w: m [c]".data
     "a".data "b".data ["1".data, "2".data, " w".data, " m [c]".data]
     (by decide) (by decide) (by decide)⟩

theorem c8_carryover_counterexample :
    parse_tidy_output "linux".data "/w".data "/".data [recOld]
      ["f.cpp:1:2: warning: m [c]".data] = .ok [recOld, recF] := by decide

theorem c8_append_after_prior (platform cwd sep : List Char)
    (prior : List TidyNotification) (lines : List Line) :
    parse_tidy_output platform cwd sep prior lines =
      Except.map (fun res => prior ++ res)
        (parse_tidy_output platform cwd sep [] lines) := by
  rw [parse_eq_map_parseAux, parse_eq_map_parseAux]
  cases parseAux platform cwd sep none lines <;> rfl

theorem c10_replace_everywhere :
    (∀ platform cwd sep l r f l0 c0 t0 m0,
      slicedAfterMerge platform l = [f, l0, c0, t0, m0] →
      mkNotification platform cwd sep l = .ok r →
      r.filename = removeAll (cwd ++ sep) f) ∧
    (mkNotification "linux".data "/repo".data "/".data
      "/repo/src/a.cpp:1:2: warning: m [c]".data).map (fun r => r.filename) =
      .ok "src/a.cpp".data ∧
    (mkNotification "linux".data "/repo".data "/".data
      "/repo/x/repo/y.cpp:1:2: warning: m [c]".data).map (fun r => r.filename) =
      .ok "xy.cpp".data := by
  refine ⟨?_, by decide, by decide⟩
  intro platform cwd sep l r f l0 c0 t0 m0 hs hmk
  obtain ⟨f', l0', c0', t0', m0', b, li, co, hs', hb, hli, hco, hr⟩ := mk_ok_fields hmk
  rw [hs] at hs'
  have hf : f = f' := (List.cons_eq_cons.mp hs').1
  rw [hr, ← hf]

theorem c10_replace_everywhere_witness :
    recMiddle.filename = removeAll ("/repo".data ++ "/".data)
      "/repo/x/repo/y.cpp".data :=
  c10_replace_everywhere.1 "linux".data "/repo".data "/".data
    "/repo/x/repo/y.cpp:1:2: warning: m [c]".data recMiddle
    "/repo/x/repo/y.cpp".data "1".data "2".data " warning".data " m [c]".data
    (by decide) (by decide)

theorem c2_last_pair_counterexample :
    headerMatch "f.cpp:1:2: warning: use [x] here [check-a]".data = true ∧
    (mkNotification "linux".data "/w".data "/".data
      "f.cpp:1:2: warning: use [x] here [check-a]".data).map
        (fun r => (r.diagnostic, r.note_info)) =
      .ok ("x] here [check-a".data, "use".data) ∧
    lastPairInner " use [x] here [check-a]".data = some "check-a".data ∧
    "x] here [check-a".data ≠ "check-a".data ∧
    "use".data ≠ "use [x] here".data :=
  ⟨by decide, by decide, by decide, by decide, by decide⟩

theorem c2_greedy_check_id (platform cwd sep : List Char) (l : Line)
    (r : TidyNotification) (f l0 c0 t0 pre mid : List Char)
    (hs : slicedAfterMerge platform l =
      [f, l0, c0, t0, pre ++ '[' :: (mid ++ [']'])])
    (hpre : '[' ∉ pre)
    (h : mkNotification platform cwd sep l = .ok r) :
    r.diagnostic = mid ∧ r.note_info = pyStrip pre :=
  mk_msg_fields hs hpre h

theorem c2_greedy_check_id_witness :
    recTwoBrackets.diagnostic = "x] here [check-a".data ∧
    recTwoBrackets.note_info = pyStrip " use ".data :=
  c2_greedy_check_id "linux".data "/w".data "/".data
    "f.cpp:1:2: warning: use [x] here [check-a]".data recTwoBrackets
    "f.cpp".data "1".data "2".data " warning".data " use ".data
    "x] here [check-a".data (by decide) (by decide) (by decide)

theorem c6_empty_check_id_counterexample :
    headerMatch "f.cpp:1:2: warning: msg []".data = true ∧
    (mkNotification "linux".data "/w".data "/".data
      "f.cpp:1:2: warning: msg []".data).map (fun r => r.diagnostic) =
      .ok [] :=
  ⟨by decide, by decide⟩

theorem c6_check_id_nonempty (platform cwd sep : List Char) (l : Line)
    (r : TidyNotification) (f l0 c0 t0 pre mid : List Char)
    (hs : slicedAfterMerge platform l =
      [f, l0, c0, t0, pre ++ '[' :: (mid ++ [']'])])
    (hpre : '[' ∉ pre) (hmid : mid ≠ [])
    (h : mkNotification platform cwd sep l = .ok r) :
    r.diagnostic ≠ [] := by
  rw [(mk_msg_fields hs hpre h).1]
  exact hmid

theorem c6_check_id_nonempty_witness : recF.diagnostic ≠ [] :=
  c6_check_id_nonempty "linux".data "/w".data "/".data
    "f.cpp:1:2: warning: m [c]".data recF
    "f.cpp".data "1".data "2".data " warning".data " m ".data "c".data
    (by decide) (by decide) (by decide) (by decide)

theorem mk_rederive {platform cwd sep : List Char} {r : TidyNotification}
    (hfn_colon : r.filename.count ':' = 0 ∨
      (r.filename.count ':' = 1 ∧ "win32".data.isPrefixOf platform = true))
    (hnt_colon : ':' ∉ r.note_type) (hnt_strip : pyStrip r.note_type = r.note_type)
    (hni_colon : ':' ∉ r.note_info) (hni_open : '[' ∉ r.note_info)
    (hni_strip : pyStrip r.note_info = r.note_info)
    (hd_colon : ':' ∉ r.diagnostic)
    (hfix : removeAll (cwd ++ sep) r.filename = r.filename)
    (hfx : r.fixit_lines = []) :
    mkNotification platform cwd sep (rederiveHeader r) = .ok r := by
  have hsp : isSpaceC ' ' = true := by decide
  have hI1 : ':' ∉ intChars r.line := fun hc => (intChars_safe hc).1 rfl
  have hI2 : ':' ∉ intChars r.cols := fun hc => (intChars_safe hc).1 rfl
  have hseg4 : ':' ∉ ' ' :: r.note_type := by
    intro hc
    rcases List.mem_cons.mp hc with h1 | h1
    · cases h1
    · exact hnt_colon h1
  have hm0c : ':' ∉ ' ' :: (r.note_info ++ ' ' :: '[' ::
      (r.diagnostic ++ [']'])) := by
    intro hc
    rcases List.mem_cons.mp hc with h1 | h1
    · cases h1
    · rcases List.mem_append.mp h1 with h2 | h2
      · exact hni_colon h2
      · rcases List.mem_cons.mp h2 with h3 | h3
        · cases h3
        · rcases List.mem_cons.mp h3 with h4 | h4
          · cases h4
          · rcases List.mem_append.mp h4 with h5 | h5
            · exact hd_colon h5
            · rcases List.mem_cons.mp h5 with h6 | h6
              · cases h6
              · cases h6
  have hL : rederiveHeader r = r.filename ++ ':' :: (intChars r.line ++ ':' ::
      (intChars r.cols ++ ':' :: ((' ' :: r.note_type) ++ ':' ::
        (' ' :: (r.note_info ++ ' ' :: '[' :: (r.diagnostic ++ [']'])))))) := by
    unfold rederiveHeader
    simp
  have hs' : slicedAfterMerge platform (rederiveHeader r) =
      [r.filename, intChars r.line, intChars r.cols, ' ' :: r.note_type,
        ' ' :: (r.note_info ++ ' ' :: '[' :: (r.diagnostic ++ [']']))] := by
    rcases hfn_colon with hfn0 | ⟨hfn1, hwin⟩
    · have hfnn : ':' ∉ r.filename := List.count_eq_zero.mp hfn0
      have hsplit : splitCols (rederiveHeader r) =
          [r.filename, intChars r.line, intChars r.cols, ' ' :: r.note_type,
            ' ' :: (r.note_info ++ ' ' :: '[' :: (r.diagnostic ++ [']']))] := by
        rw [hL, splitCols_append _ hfnn, splitCols_append _ hI1,
          splitCols_append _ hI2, splitCols_append _ hseg4,
          splitCols_nosplit hm0c]
      unfold slicedAfterMerge
      rw [if_neg]
      · exact hsplit
      · rintro ⟨-, hlen⟩
        rw [hsplit] at hlen
        simp at hlen
    · obtain ⟨fa, fb, hfa, hna, hnb⟩ := count_one_split hfn1
      have hL2 : rederiveHeader r = fa ++ ':' :: (fb ++ ':' ::
          (intChars r.line ++ ':' :: (intChars r.cols ++ ':' ::
            ((' ' :: r.note_type) ++ ':' ::
              (' ' :: (r.note_info ++ ' ' :: '[' ::
                (r.diagnostic ++ [']']))))))) := by
        rw [hL, hfa]
        simp
      have hsplit : splitCols (rederiveHeader r) =
          [fa, fb, intChars r.line, intChars r.cols, ' ' :: r.note_type,
            ' ' :: (r.note_info ++ ' ' :: '[' :: (r.diagnostic ++ [']']))] := by
        rw [hL2, splitCols_append _ hna, splitCols_append _ hnb,
          splitCols_append _ hI1, splitCols_append _ hI2,
          splitCols_append _ hseg4, splitCols_nosplit hm0c]
      unfold slicedAfterMerge
      rw [if_pos ⟨hwin, by rw [hsplit]; simp⟩]
      simp only [hsplit]
      rw [← hfa]
  have hm0eq : ' ' :: (r.note_info ++ ' ' :: '[' :: (r.diagnostic ++ [']'])) =
      (' ' :: (r.note_info ++ [' '])) ++ '[' :: (r.diagnostic ++ [']']) := by
    simp
  have hpre' : '[' ∉ ' ' :: (r.note_info ++ [' ']) := by
    intro hc
    rcases List.mem_cons.mp hc with h1 | h1
    · cases h1
    · rcases List.mem_append.mp h1 with h2 | h2
      · exact hni_open h2
      · rcases List.mem_cons.mp h2 with h3 | h3
        · cases h3
        · cases h3
  have hb' : extractBracket (' ' :: (r.note_info ++ ' ' :: '[' ::
      (r.diagnostic ++ [']']))) = some ('[' :: (r.diagnostic ++ [']'])) := by
    rw [hm0eq]
    exact extractBracket_eq r.diagnostic hpre' (by simp)
  have hbuild := @mk_ok_build platform cwd sep (rederiveHeader r) r.filename
    (intChars r.line) (intChars r.cols) (' ' :: r.note_type)
    (' ' :: (r.note_info ++ ' ' :: '[' :: (r.diagnostic ++ [']'])))
    ('[' :: (r.diagnostic ++ [']'])) r.line r.cols hs' hb'
    (pyInt_intChars r.line) (pyInt_intChars r.cols)
  rw [hbuild]
  have hrm : removeAll ('[' :: (r.diagnostic ++ [']']))
      (' ' :: (r.note_info ++ ' ' :: '[' :: (r.diagnostic ++ [']']))) =
      ' ' :: (r.note_info ++ [' ']) := by
    rw [hm0eq, removeAll_skip _ hpre', removeAll_self (by simp), List.append_nil]
  have hni2 : pyStrip (' ' :: (r.note_info ++ [' '])) = r.note_info := by
    rw [pyStrip_cons_space hsp, pyStrip_concat_space hsp, hni_strip]
  have hnt2 : pyStrip (' ' :: r.note_type) = r.note_type := by
    rw [pyStrip_cons_space hsp, hnt_strip]
  have hdg : ((('[' :: (r.diagnostic ++ [']'])).drop 1).dropLast) = r.diagnostic := by
    rw [List.drop_one, List.tail_cons, List.dropLast_concat]
  rw [hrm, hfix, hnt2, hni2, hdg, ← hfx]

theorem c9_roundtrip (platform cwd sep : List Char) (l : Line)
    (r : TidyNotification)
    (hmatch : headerMatch l = true)
    (h : mkNotification platform cwd sep l = .ok r)
    (hfix : removeAll (cwd ++ sep) r.filename = r.filename) :
    mkNotification platform cwd sep (rederiveHeader r) = .ok r := by
  obtain ⟨f, l0, c0, t0, m0, b, li, co, hs, hb, hli, hco, hr⟩ := mk_ok_fields h
  obtain ⟨pre, mid, post, hm0, hpre, hpost, hbeq⟩ := extractBracket_sound hb
  have hm0ne : m0 ≠ [] := by rw [hm0]; simp
  have hlend : lastC m0 = some ']' := mk_m0_ends (headerMatch_ends hmatch) hs hm0ne
  have hpost_nil : post = [] := by
    by_contra hne
    rw [hm0, lastC_append_right pre (by simp),
      lastC_cons_ne '[' (by simp), lastC_append_right mid (by simp),
      lastC_cons_ne ']' hne] at hlend
    exact hpost (lastC_mem hlend)
  subst hpost_nil
  have hm0' : m0 = pre ++ '[' :: (mid ++ [']']) := hm0
  have hs2 : slicedAfterMerge platform l =
      [f, l0, c0, t0, pre ++ '[' :: (mid ++ [']'])] := by rw [← hm0']; exact hs
  obtain ⟨hdiag, hni⟩ := mk_msg_fields hs2 hpre h
  have hsegs : ∀ s ∈ splitCols l, ':' ∉ s := fun s hsm => splitCols_no_colon hsm
  have ht0mem : t0 ∈ splitCols l ∧ m0 ∈ splitCols l := by
    rcases slicedAfterMerge_cases hs with hc | ⟨-, a, b2, -, -, -, hc⟩ <;>
      rw [hc] <;> simp
  have hnt_colon : ':' ∉ r.note_type := by
    rw [hr]
    intro hc
    exact hsegs t0 ht0mem.1 (mem_pyStrip hc)
  have hm0_colon : ':' ∉ m0 := hsegs m0 ht0mem.2
  have hpre_colon : ':' ∉ pre := fun hc => hm0_colon (by rw [hm0']; simp [hc])
  have hmid_colon : ':' ∉ mid := fun hc => hm0_colon (by rw [hm0']; simp [hc])
  have hni_colon : ':' ∉ r.note_info := by
    rw [hni]
    intro hc
    exact hpre_colon (mem_pyStrip hc)
  have hni_open : '[' ∉ r.note_info := by
    rw [hni]
    intro hc
    exact hpre (mem_pyStrip hc)
  have hni_strip : pyStrip r.note_info = r.note_info := by
    rw [hni, pyStrip_idem]
  have hnt_strip : pyStrip r.note_type = r.note_type := by
    rw [hr]
    show pyStrip (pyStrip t0) = pyStrip t0
    exact pyStrip_idem t0
  have hd_colon : ':' ∉ r.diagnostic := by rw [hdiag]; exact hmid_colon
  have hfx : r.fixit_lines = [] := mk_fixit_nil h
  have hf_count : r.filename.count ':' = 0 ∨
      (r.filename.count ':' = 1 ∧ "win32".data.isPrefixOf platform = true) := by
    have hrf : r.filename = removeAll (cwd ++ sep) f := by rw [hr]
    rcases slicedAfterMerge_cases hs with hc | ⟨hwin, a, b2, hfeq, hna, hnb, -⟩
    · left
      have hf0 : f.count ':' = 0 := List.count_eq_zero.mpr
        (hsegs f (by rw [hc]; simp))
      have := count_removeAll_le ':' (cwd ++ sep) f
      rw [hrf]
      omega
    · have hf1 : f.count ':' = 1 := by
        rw [hfeq, List.count_append, List.count_cons,
          List.count_eq_zero.mpr hna, List.count_eq_zero.mpr hnb]
        simp
      have hle := count_removeAll_le ':' (cwd ++ sep) f
      rw [← hrf] at hle
      rw [hf1] at hle
      interval_cases hcount : r.filename.count ':'
      · left; rfl
      · right; exact ⟨rfl, hwin⟩
  exact mk_rederive hf_count hnt_colon hnt_strip hni_colon hni_open hni_strip
    hd_colon hfix hfx

theorem c9_filename_counterexample :
    headerMatch "//r/r//x:1:2: w: m [c]".data = true ∧
    ((mkNotification "linux".data "/r".data "/".data
      "//r/r//x:1:2: w: m [c]".data).bind
      (fun r => (mkNotification "linux".data "/r".data "/".data
        (rederiveHeader r)).map (fun r2 => (r.filename, r2.filename)))) =
      .ok ("/r//x".data, "/x".data) ∧
    "/r//x".data ≠ "/x".data :=
  ⟨by decide, by decide, by decide⟩

theorem c9_roundtrip_witness :
    mkNotification "linux".data "/w".data "/".data (rederiveHeader recRound) =
      .ok recRound :=
  c9_roundtrip "linux".data "/w".data "/".data
    "src/a.cpp:3:4: warning: bad [c]".data recRound
    (by decide) (by decide) (by decide)

theorem c7_trailing_space_counterexample :
    headerMatch "a.cpp:1:2: warning: m [c] ".data = false ∧
    headerMatch "a.cpp:1:2: warning: m [c]".data = true :=
  ⟨by decide, by decide⟩

theorem c7_header_shape_matches (path d1 d2 sev msg cid : List Char)
    (h1 : d1 ≠ []) (hd1 : ∀ c ∈ d1, isDigitC c = true)
    (h2 : d2 ≠ []) (hd2 : ∀ c ∈ d2, isDigitC c = true)
    (h3 : sev ≠ []) (hS : ∀ c ∈ sev, isWordC c = true) :
    headerMatch (path ++ ':' :: (d1 ++ ':' :: (d2 ++ ':' :: (' ' ::
      (sev ++ ':' :: (' ' :: (msg ++ ' ' :: '[' ::
        (cid ++ [']'])))))))) = true := by
  have hc := @headerMatch_complete path d1 d2 sev ' ' (' ' :: (msg ++ [' ']))
    cid h1 hd1 h2 hd2 (by decide) h3 hS
  have heq : (' ' :: (msg ++ [' '])) ++ '[' :: (cid ++ [']']) =
      ' ' :: (msg ++ ' ' :: '[' :: (cid ++ [']'])) := by simp
  rw [heq] at hc
  exact hc

theorem c7_header_shape_matches_witness :
    headerMatch ("a.cpp".data ++ ':' :: ("10".data ++ ':' :: ("5".data ++ ':' ::
      (' ' :: ("warning".data ++ ':' :: (' ' :: ("bad".data ++ ' ' :: '[' ::
        ("x".data ++ [']'])))))))) = true :=
  c7_header_shape_matches "a.cpp".data "10".data "5".data "warning".data
    "bad".data "x".data (by decide) (by decide) (by decide) (by decide)
    (by decide) (by decide)

end ClangTidy
